import Mathlib

/-!
Verification development for the GPU texture cache
(`src/core/gpu_hw_texture_cache.{h,cpp}`).

The C++ code is shallowly embedded: pure helpers become Lean functions on
`Nat`, the mutable cache becomes explicit state (`TCState`), intrusive page
lists become lists of source ids, the `std::unordered_map` hash cache becomes
an association list whose order is the map's iteration order, and functions
that can fail (device texture allocation, the `DefaultCaseIsUnreachable`
assertion) return `Option`.

The XXH3-64 digest of a byte sequence is modelled injectively by the sequence
of VRAM cells that the code feeds to the hasher (two byte sequences are equal
iff the fed cell sequences are equal); the literal constant `0` that the code
uses as palette hash for direct modes is modelled by `none`, distinct from any
digest `some stream`.

Types declared in `gpu_types.h` (which is not part of `src/`):
`GPUTextureMode`'s variants and numeric values are pinned by the code in
`src/` (`SourceKeyToString`'s name table, `mode < Direct16Bit` comparisons,
`2 - static_cast<u8>(mode)`), `VRAM_WIDTH`/`VRAM_HEIGHT` and
`GPUTexturePaletteReg` are modelled from the spec where noted.
-/

namespace GPUTextureCache

/-! ### Constants (gpu_hw_texture_cache.h) -/

/-- Modelled from the spec: `VRAM_WIDTH` is declared in `gpu_types.h`, which is
not in `src/`; the spec gives the example VRAM of 1024×512 16-bit cells. -/
def VRAM_WIDTH : Nat := 1024

/-- Modelled from the spec: `VRAM_HEIGHT`, see `VRAM_WIDTH`. -/
def VRAM_HEIGHT : Nat := 512

def VRAM_PAGE_WIDTH : Nat := 64
def VRAM_PAGE_HEIGHT : Nat := 256
def VRAM_PAGES_WIDE : Nat := VRAM_WIDTH / VRAM_PAGE_WIDTH
def VRAM_PAGES_HIGH : Nat := VRAM_HEIGHT / VRAM_PAGE_HEIGHT
def NUM_PAGES : Nat := VRAM_PAGES_WIDE * VRAM_PAGES_HIGH
def TEXTURE_PAGE_WIDTH : Nat := 256
def TEXTURE_PAGE_HEIGHT : Nat := 256
def MAX_PAGE_REFS_PER_SOURCE : Nat := 6

/-- `GPUTextureMode` (gpu_types.h; variant names and order pinned by
`SourceKeyToString` in the .cpp and the `mode < Direct16Bit` comparisons). -/
inductive Mode where
  | Palette4Bit
  | Palette8Bit
  | Direct16Bit
  | Reserved_Direct16Bit
deriving DecidableEq

/-- The u8 value of the mode enum. -/
def Mode.toNat : Mode → Nat
  | .Palette4Bit => 0
  | .Palette8Bit => 1
  | .Direct16Bit => 2
  | .Reserved_Direct16Bit => 3

/-- Modelled from the spec: `GPUTexturePaletteReg` (gpu_types.h is not in
`src/`) is an opaque 16-bit register encoding the CLUT row base
`(x_base, y_base)`; the code consumes it only through `GetXBase`/`GetYBase`
(and `GetWidth`), so we model the register by the decoded pair. -/
structure PaletteReg where
  xBase : Nat
  yBase : Nat
deriving DecidableEq

/-- Modelled from the spec: `GPUTexturePaletteReg::GetWidth(mode)` returns 16
for 4-bit and 256 for 8-bit (number of VRAM cells read as the CLUT); it is
only called for paletted modes. -/
def paletteWidth (m : Mode) : Nat :=
  if m.toNat = 0 then 16 else 256

/-- `SourceKey { page : u8, mode : u8, palette : u16 }`; `memcmp` equality of
the packed 4-byte struct is field-wise equality. -/
structure SourceKeyM where
  page : Nat
  mode : Mode
  palette : PaletteReg
deriving DecidableEq

/-! ### Page geometry -/

/-- `PageIndex(px, py) = py * VRAM_PAGES_WIDE + px` (header). -/
def pageIndexM (px py : Nat) : Nat := py * VRAM_PAGES_WIDE + px

/-- `PageStartX(pn) = (pn % VRAM_PAGES_WIDE) * VRAM_PAGE_WIDTH`. -/
def pageStartX (pn : Nat) : Nat := (pn % VRAM_PAGES_WIDE) * VRAM_PAGE_WIDTH

/-- `PageStartY(pn) = (pn / VRAM_PAGES_WIDE) * VRAM_PAGE_HEIGHT`. -/
def pageStartY (pn : Nat) : Nat := (pn / VRAM_PAGES_WIDE) * VRAM_PAGE_HEIGHT

/-- `WidthForMode(mode) = TEXTURE_PAGE_WIDTH >> (mode < Direct16Bit ? 2 - mode : 0)`. -/
def widthForMode (m : Mode) : Nat :=
  TEXTURE_PAGE_WIDTH >>> (if m.toNat < 2 then 2 - m.toNat else 0)

/-- `GPUTextureCache::LoopPages(x, y, width, height, f)`, embedded as the list
of page numbers passed to `f`, in call order.  Mirrors the C++ loop exactly:
the inner (column) loop invokes `f(page_number)` while only the dead local
`y_page_number` is incremented, so each iteration of a row passes the row's
base page number. -/
def loopPagesList (x y width height : Nat) : List Nat :=
  let sx := x / VRAM_PAGE_WIDTH
  let sy := y / VRAM_PAGE_HEIGHT
  let ex := (x + (width - 1)) / VRAM_PAGE_WIDTH
  let ey := (y + (height - 1)) / VRAM_PAGE_HEIGHT
  (List.range (ey - sy + 1)).flatMap fun dy =>
    (List.range (ex - sx + 1)).map fun _ =>
      pageIndexM sx sy + dy * VRAM_PAGES_WIDE

/-- `Common::Rectangle<u32>` (common/rectangle.h is not in `src/`): modelled
from the spec as half-open `[left, right) × [top, bottom)` with
`GetWidth = right - left`, `GetHeight = bottom - top`. -/
structure RectM where
  left : Nat
  top : Nat
  right : Nat
  bottom : Nat
deriving DecidableEq

/-- `GPUTextureCache::InvalidatePages(rc)`, embedded as the list of page
numbers whose `InvalidatePage` is called: it forwards
`(rc.left, rc.top, rc.GetWidth(), rc.GetHeight())` into `LoopPages`. -/
def invalidatePagesRectList (rc : RectM) : List Nat :=
  loopPagesList rc.left rc.top (rc.right - rc.left) (rc.bottom - rc.top)

/-- Specification-side predicate (from the claim's words): page `pn`'s
rectangle `[px*64, px*64+64) × [py*256, py*256+256)` intersects the rectangle
`[x, x+w) × [y, y+h)`. -/
def pageRectIntersects (x y w h pn : Nat) : Prop :=
  let px := pn % VRAM_PAGES_WIDE
  let py := pn / VRAM_PAGES_WIDE
  px * VRAM_PAGE_WIDTH < x + w ∧ x < px * VRAM_PAGE_WIDTH + VRAM_PAGE_WIDTH ∧
  py * VRAM_PAGE_HEIGHT < y + h ∧ y < py * VRAM_PAGE_HEIGHT + VRAM_PAGE_HEIGHT

instance (x y w h pn : Nat) : Decidable (pageRectIntersects x y w h pn) := by
  unfold pageRectIntersects; infer_instance

/-- C1: the claim says `InvalidatePages(rect)` invalidates exactly the pages
whose page rectangle intersects `rect`, in particular every page column from
`floor(rect.left/64)` to `floor((rect.right-1)/64)`.  The code does not: for
the in-VRAM rectangle `[0,128) × [0,1)` (two page columns), page 1's rectangle
intersects the rect, yet the code invalidates page 0 twice and never page 1,
because the inner loop of `LoopPages` passes `page_number` (constant per row)
instead of the incremented `y_page_number`. -/
theorem C1_invalidatePages_bug :
    invalidatePagesRectList ⟨0, 0, 128, 1⟩ = [0, 0] ∧
    pageRectIntersects 0 0 128 1 1 ∧
    1 ∉ invalidatePagesRectList ⟨0, 0, 128, 1⟩ := by
  decide

/-! ### VRAM and decoders -/

/-- `g_vram`, a read-only array of 16-bit cells, modelled as a function from
flat index to cell value. -/
abbrev Vram := Nat → Nat

/-- Reading a `u16` cell from `g_vram` (the array's element type bounds the
value below `2^16`). -/
def vcell (v : Vram) (i : Nat) : Nat := v i % 65536

/-- `VRAMPagePointer(pn) = &g_vram[PageStartY(pn) * VRAM_WIDTH + PageStartX(pn)]`,
as a flat base index. -/
def pageBase (pn : Nat) : Nat := pageStartY pn * VRAM_WIDTH + pageStartX pn

/-- The CLUT base index `&g_vram[palette.GetYBase() * VRAM_WIDTH + palette.GetXBase()]`. -/
def palBase (pal : PaletteReg) : Nat := pal.yBase * VRAM_WIDTH + pal.xBase

/-- One row of `DecodeTexture16`: `TEXTURE_PAGE_WIDTH` conversions of
consecutive cells starting at flat index `row`.  `conv` stands for the
project's `VRAMRGBA5551ToRGBA8888` (declared outside `src/`). -/
def decodeRow16 (conv : Nat → Nat) (v : Vram) (row : Nat) : List Nat :=
  (List.range TEXTURE_PAGE_WIDTH).map fun x => conv (vcell v (row + x))

/-- `DecodeTexture16(page, dest, stride)`: the written texel grid as a list of
rows; the source pointer steps by `VRAM_WIDTH` cells per row. -/
def decodeTexture16M (conv : Nat → Nat) (v : Vram) (pb : Nat) : List (List Nat) :=
  (List.range TEXTURE_PAGE_HEIGHT).map fun y => decodeRow16 conv v (pb + y * VRAM_WIDTH)

/-- One row of `DecodeTexture8`: `TEXTURE_PAGE_WIDTH / 2` cells, each emitting
its low byte then its high byte through the 256-entry CLUT at `clut`. -/
def decodeRow8 (conv : Nat → Nat) (v : Vram) (row clut : Nat) : List Nat :=
  (List.range (TEXTURE_PAGE_WIDTH / 2)).flatMap fun x =>
    let pp := vcell v (row + x)
    [conv (vcell v (clut + (pp &&& 0xFF))),
     conv (vcell v (clut + (pp >>> 8)))]

/-- `DecodeTexture8(page, palette, dest, stride)` as a list of rows. -/
def decodeTexture8M (conv : Nat → Nat) (v : Vram) (pb clut : Nat) : List (List Nat) :=
  (List.range TEXTURE_PAGE_HEIGHT).map fun y => decodeRow8 conv v (pb + y * VRAM_WIDTH) clut

/-- One row of `DecodeTexture4`: `TEXTURE_PAGE_WIDTH / 4` cells, each emitting
its four nibbles (low to high) through the 16-entry CLUT at `clut`. -/
def decodeRow4 (conv : Nat → Nat) (v : Vram) (row clut : Nat) : List Nat :=
  (List.range (TEXTURE_PAGE_WIDTH / 4)).flatMap fun x =>
    let pp := vcell v (row + x)
    [conv (vcell v (clut + (pp &&& 0xF))),
     conv (vcell v (clut + ((pp >>> 4) &&& 0xF))),
     conv (vcell v (clut + ((pp >>> 8) &&& 0xF))),
     conv (vcell v (clut + (pp >>> 12)))]

/-- `DecodeTexture4(page, palette, dest, stride)` as a list of rows. -/
def decodeTexture4M (conv : Nat → Nat) (v : Vram) (pb clut : Nat) : List (List Nat) :=
  (List.range TEXTURE_PAGE_HEIGHT).map fun y => decodeRow4 conv v (pb + y * VRAM_WIDTH) clut

/-- The mode dispatch `DecodeTexture(page, palette, mode, dest, stride)`:
`Direct16Bit` and `Reserved_Direct16Bit` share one case label in the switch. -/
def decodeTextureM (conv : Nat → Nat) (v : Vram) (pal : PaletteReg) (page : Nat) :
    Mode → List (List Nat)
  | .Palette4Bit => decodeTexture4M conv v (pageBase page) (palBase pal)
  | .Palette8Bit => decodeTexture8M conv v (pageBase page) (palBase pal)
  | .Direct16Bit => decodeTexture16M conv v (pageBase page)
  | .Reserved_Direct16Bit => decodeTexture16M conv v (pageBase page)

/-! ### Hashing -/

/-- `GPUTextureCache::HashPage(page, mode)`: the sequence of VRAM cells fed to
the incremental XXH3 hasher (`VRAM_PAGE_WIDTH * k` cells per row, `k ∈ {1,2,4}`,
rows stepping by `VRAM_WIDTH`), modelling the digest injectively.  The switch
has no case for `Reserved_Direct16Bit`: that mode falls into
`DefaultCaseIsUnreachable()`, modelled as `none`. -/
def hashPageStream (v : Vram) (page : Nat) : Mode → Option (List Nat)
  | .Palette4Bit => some ((List.range VRAM_PAGE_HEIGHT).flatMap fun y =>
      (List.range VRAM_PAGE_WIDTH).map fun x => vcell v (pageBase page + y * VRAM_WIDTH + x))
  | .Palette8Bit => some ((List.range VRAM_PAGE_HEIGHT).flatMap fun y =>
      (List.range (VRAM_PAGE_WIDTH * 2)).map fun x => vcell v (pageBase page + y * VRAM_WIDTH + x))
  | .Direct16Bit => some ((List.range VRAM_PAGE_HEIGHT).flatMap fun y =>
      (List.range (VRAM_PAGE_WIDTH * 4)).map fun x => vcell v (pageBase page + y * VRAM_WIDTH + x))
  | .Reserved_Direct16Bit => none

/-- `GPUTextureCache::HashPalette(palette, mode)`: one-shot XXH3 over 16 or
256 contiguous cells at the CLUT base.  It is only called for paletted modes;
the remaining cases sit behind `DefaultCaseIsUnreachable()`. -/
def hashPaletteStream (v : Vram) (pal : PaletteReg) : Mode → List Nat
  | .Palette4Bit => (List.range 16).map fun i => vcell v (palBase pal + i)
  | .Palette8Bit => (List.range 256).map fun i => vcell v (palBase pal + i)
  | _ => []

/-- The palette hash used by `LookupHashCache`:
`(key.mode < Direct16Bit) ? HashPalette(...) : 0`; the constant `0` is
modelled by `none`. -/
def texPaletteHash (v : Vram) (pal : PaletteReg) (m : Mode) : Option (List Nat) :=
  if m.toNat < 2 then some (hashPaletteStream v pal m) else none

/-- `HashCacheKey { texture_hash, palette_hash, mode }`; `memcmp` equality is
field-wise equality. -/
structure HashCacheKeyM where
  texture_hash : List Nat
  palette_hash : Option (List Nat)
  mode : Nat
deriving DecidableEq

/-- The `HashCacheKey` built at the top of `LookupHashCache`; `none` when
`HashPage` hits its unreachable default (`Reserved_Direct16Bit`). -/
def hashCacheKeyOf (v : Vram) (k : SourceKeyM) : Option HashCacheKeyM :=
  (hashPageStream v k.page k.mode).map fun t =>
    ⟨t, texPaletteHash v k.palette k.mode, k.mode.toNat⟩

/-! ### Page registration of a new Source -/

/-- The dedup step shared by `add_page_ref` / `add_page_ref_back` in
`CreateSource`: append each page number unless already present in the
accumulated `page_refns` table. -/
def dedupAdd (acc : List Nat) (pns : List Nat) : List Nat :=
  pns.foldl (fun a pn => if pn ∈ a then a else a ++ [pn]) acc

/-- The page numbers registered for the texture footprint in `CreateSource`:
`LoopPages(PageStartX(key.page), PageStartY(key.page), WidthForMode(key.mode),
TEXTURE_PAGE_HEIGHT, add_page_ref)`. -/
def sourcePagesFp (k : SourceKeyM) : List Nat :=
  dedupAdd []
    (loopPagesList (pageStartX k.page) (pageStartY k.page) (widthForMode k.mode)
      TEXTURE_PAGE_HEIGHT)

/-- All page numbers registered by `CreateSource` (footprint first, then for
paletted modes the CLUT row `LoopPages(palette.GetXBase(), palette.GetYBase(),
GetWidth(mode), 1, add_page_ref_back)`, deduplicated against the footprint). -/
def sourcePagesAll (k : SourceKeyM) : List Nat :=
  if k.mode.toNat < 2 then
    dedupAdd (sourcePagesFp k)
      (loopPagesList k.palette.xBase k.palette.yBase (paletteWidth k.mode) 1)
  else
    sourcePagesFp k

/-- C2: the claim says a Source created for `(page 0, Direct16Bit)` is linked
on every page intersected by the 256-cell-wide footprint, i.e. pages 0, 1, 2
and 3.  Because `LoopPages` passes the row-constant `page_number` to its
callback, `CreateSource` registers the source on page 0 only: page 1's
rectangle intersects the footprint but receives no reference. -/
theorem C2_createSource_pages_bug :
    sourcePagesAll ⟨0, .Direct16Bit, ⟨0, 0⟩⟩ = [0] ∧
    pageRectIntersects (pageStartX 0) (pageStartY 0) (widthForMode .Direct16Bit)
      TEXTURE_PAGE_HEIGHT 1 ∧
    1 ∉ sourcePagesAll ⟨0, .Direct16Bit, ⟨0, 0⟩⟩ := by
  decide

/-- C3: the claim says `Reserved_Direct16Bit` behaves identically to
`Direct16Bit` along the whole lookup path and that no operation is unreachable
for it.  The decode dispatch and the palette hash do treat the two modes
identically, but `HashPage`'s switch has no `Reserved_Direct16Bit` case: the
mode falls into `DefaultCaseIsUnreachable()` (a debug assertion / undefined
behaviour), modelled as `none`, while `Direct16Bit` hashes its footprint. -/
theorem C3_reserved_mode_bug (conv : Nat → Nat) (v : Vram) (pal : PaletteReg) (page : Nat) :
    hashPageStream v page .Reserved_Direct16Bit = none ∧
    (hashPageStream v page .Direct16Bit).isSome = true ∧
    decodeTextureM conv v pal page .Reserved_Direct16Bit =
      decodeTextureM conv v pal page .Direct16Bit ∧
    texPaletteHash v pal .Reserved_Direct16Bit = none := by
  exact ⟨rfl, rfl, rfl, rfl⟩

/-! ### Drawn-rect tracking -/

/-- Modelled from the spec: `Common::Rectangle::Intersects` (common/rectangle.h
is not in `src/`), nonempty intersection of half-open rectangles. -/
def rectIntersects (a b : RectM) : Prop :=
  a.left < b.right ∧ b.left < a.right ∧ a.top < b.bottom ∧ b.top < a.bottom

instance (a b : RectM) : Decidable (rectIntersects a b) := by
  unfold rectIntersects; infer_instance

/-- Modelled from the spec: `Common::Rectangle::Include`, the bounding union. -/
def rectInclude (a b : RectM) : RectM :=
  ⟨min a.left b.left, min a.top b.top, max a.right b.right, max a.bottom b.bottom⟩

/-- `r` lies inside `d` (as sets of points of half-open rectangles, for
rectangles in accumulator use). -/
def rectContains (d r : RectM) : Prop :=
  d.left ≤ r.left ∧ d.top ≤ r.top ∧ r.right ≤ d.right ∧ r.bottom ≤ d.bottom

instance (d r : RectM) : Decidable (rectContains d r) := by
  unfold rectContains; infer_instance

/-- Modelled from the spec: the drawn-rect accumulator starts out empty
(`Common::Rectangle<u32>`'s default invalid rectangle, which intersects
nothing and behaves as the identity of `Include`). -/
def drawnRectInit : RectM := ⟨4294967295, 4294967295, 0, 0⟩

/-- `GPUTextureCache::UpdateDrawnRect(rect)`: no-op when `rect` is already
contained in `m_drawn_rect` (the code compares the four edges), otherwise
`m_drawn_rect.Include(rect)`. -/
def updateDrawnRectM (drawn rect : RectM) : RectM :=
  if rect.left ≥ drawn.left ∧ rect.right ≤ drawn.right ∧ rect.top ≥ drawn.top ∧
      rect.bottom ≤ drawn.bottom then
    drawn
  else
    rectInclude drawn rect

/-- `GPUTextureCache::InvalidateFromWrite(rect)`: returns the new
`m_drawn_rect` together with the rectangle passed on to `InvalidatePages`. -/
def invalidateFromWriteM (drawn rect : RectM) : RectM × RectM :=
  if rectIntersects drawn rect then
    (rectInclude drawn rect, rectInclude drawn rect)
  else
    (drawn, rect)

/-- A sequence of drawn-rect-affecting cache operations. -/
inductive TCOp where
  | draw (r : RectM)
  | write (r : RectM)

/-- The drawn rect after running a sequence of `UpdateDrawnRect` /
`InvalidateFromWrite` calls. -/
def applyOpsM (d : RectM) : List TCOp → RectM
  | [] => d
  | .draw r :: t => applyOpsM (updateDrawnRectM d r) t
  | .write r :: t => applyOpsM (invalidateFromWriteM d r).1 t

/-- C4 counterexample: the claim says accumulation restarts after any
`InvalidateFromWrite`, so a draw rectangle recorded before such a call should
no longer contribute.  In the code the drawn rect is never reset: after
`UpdateDrawnRect([0,128)²)` and a non-overlapping `InvalidateFromWrite`, the
drawn rect still equals `[0,128)²`, and a later `InvalidateFromWrite` of
`[64,128)²` still widens its invalidation to `[0,128)²` because of the old
draw rectangle. -/
theorem C4_drawn_rect_counterexample :
    (applyOpsM drawnRectInit [.draw ⟨0, 0, 128, 128⟩, .write ⟨200, 200, 300, 300⟩]
      = ⟨0, 0, 128, 128⟩) ∧
    applyOpsM drawnRectInit [.draw ⟨0, 0, 128, 128⟩, .write ⟨200, 200, 300, 300⟩]
      ≠ drawnRectInit ∧
    (invalidateFromWriteM
        (applyOpsM drawnRectInit [.draw ⟨0, 0, 128, 128⟩, .write ⟨200, 200, 300, 300⟩])
        ⟨64, 64, 128, 128⟩).2 = ⟨0, 0, 128, 128⟩ := by
  decide

/-- C4 amended: the drawn rect accumulates the union of all draw-target
rectangles and of the write rectangles of intersecting `InvalidateFromWrite`
calls over the cache's lifetime; it is never reset by `InvalidateFromWrite`,
so every rectangle once contained in it stays contained through any further
sequence of `UpdateDrawnRect` / `InvalidateFromWrite` calls. -/
theorem C4_drawn_rect_amended :
    (∀ d r : RectM, rectContains (updateDrawnRectM d r) r) ∧
    (∀ (d : RectM) (ops : List TCOp) (r : RectM),
      rectContains d r → rectContains (applyOpsM d ops) r) := by
  have hinc : ∀ d x r : RectM, rectContains d r → rectContains (rectInclude d x) r := by
    intro d x r h
    obtain ⟨h1, h2, h3, h4⟩ := h
    refine ⟨?_, ?_, ?_, ?_⟩ <;> simp [rectInclude] <;> omega
  constructor
  · intro d r
    unfold updateDrawnRectM
    split
    · next h => exact ⟨h.1, h.2.2.1, h.2.1, h.2.2.2⟩
    · exact ⟨min_le_right _ _, min_le_right _ _, le_max_right _ _, le_max_right _ _⟩
  · intro d ops
    induction ops generalizing d with
    | nil => intro r h; exact h
    | cons op t ih =>
      intro r h
      cases op with
      | draw x =>
        refine ih (updateDrawnRectM d x) r ?_
        unfold updateDrawnRectM
        split
        · exact h
        · exact hinc d x r h
      | write x =>
        refine ih (invalidateFromWriteM d x).1 r ?_
        unfold invalidateFromWriteM
        split
        · exact hinc d x r h
        · exact h

/-- C4 amended, witness: containment persists across a concrete
`InvalidateFromWrite` call. -/
theorem C4_drawn_rect_amended_witness :
    rectContains (applyOpsM ⟨0, 0, 10, 10⟩ [.write ⟨2, 2, 3, 3⟩]) ⟨1, 1, 9, 9⟩ :=
  C4_drawn_rect_amended.2 ⟨0, 0, 10, 10⟩ [.write ⟨2, 2, 3, 3⟩] ⟨1, 1, 9, 9⟩ (by decide)

/-- C5: `InvalidateFromWrite(rect)`: when the drawn rect intersects `rect`,
the drawn rect is first extended by `rect` and the pages of the whole extended
drawn rect (a superset of `rect`) are invalidated; otherwise only `rect`'s
pages are invalidated and the drawn rect is unchanged. -/
theorem C5_invalidateFromWrite (d r : RectM) :
    (rectIntersects d r →
      (invalidateFromWriteM d r).1 = rectInclude d r ∧
      (invalidateFromWriteM d r).2 = rectInclude d r ∧
      rectContains (invalidateFromWriteM d r).2 r) ∧
    (¬ rectIntersects d r →
      (invalidateFromWriteM d r).1 = d ∧ (invalidateFromWriteM d r).2 = r) := by
  constructor
  · intro h
    have hif : invalidateFromWriteM d r = (rectInclude d r, rectInclude d r) := by
      unfold invalidateFromWriteM; rw [if_pos h]
    refine ⟨by rw [hif], by rw [hif], ?_⟩
    rw [hif]
    exact ⟨min_le_right _ _, min_le_right _ _, le_max_right _ _, le_max_right _ _⟩
  · intro h
    have hif : invalidateFromWriteM d r = (d, r) := by
      unfold invalidateFromWriteM; rw [if_neg h]
    exact ⟨by rw [hif], by rw [hif]⟩

/-- C5 witness, the spec's own scenario: a drawn rect `[0,128)²` and a write
of `[64,192)²` intersect, so the drawn rect extends to `[0,192)²` and that
whole region is invalidated. -/
theorem C5_invalidateFromWrite_witness :
    invalidateFromWriteM ⟨0, 0, 128, 128⟩ ⟨64, 64, 192, 192⟩
      = (⟨0, 0, 192, 192⟩, ⟨0, 0, 192, 192⟩) := by
  have h := (C5_invalidateFromWrite ⟨0, 0, 128, 128⟩ ⟨64, 64, 192, 192⟩).1 (by decide)
  have h1 := h.1
  have h2 := h.2.1
  rw [show rectInclude ⟨0, 0, 128, 128⟩ ⟨64, 64, 192, 192⟩ = ⟨0, 0, 192, 192⟩ from by decide]
    at h1 h2
  calc invalidateFromWriteM ⟨0, 0, 128, 128⟩ ⟨64, 64, 192, 192⟩
      = ((invalidateFromWriteM ⟨0, 0, 128, 128⟩ ⟨64, 64, 192, 192⟩).1,
         (invalidateFromWriteM ⟨0, 0, 128, 128⟩ ⟨64, 64, 192, 192⟩).2) := rfl
    _ = (⟨0, 0, 192, 192⟩, ⟨0, 0, 192, 192⟩) := by rw [h1, h2]

/-! ### Decoder indexing lemmas (C9) -/

theorem flatMapRange_length {α : Type} (f : Nat → List α) (c : Nat)
    (hl : ∀ i, (f i).length = c) (n : Nat) :
    ((List.range n).flatMap f).length = n * c := by
  induction n with
  | zero => simp
  | succ m ih =>
    rw [List.range_succ, List.flatMap_append, List.length_append, ih, List.flatMap_singleton,
      hl, Nat.succ_mul]

theorem flatMapRange_getElem? {α : Type} (f : Nat → List α) (c : Nat) (hc : 0 < c)
    (hl : ∀ i, (f i).length = c) (n x : Nat) (hx : x < n * c) :
    ((List.range n).flatMap f)[x]? = (f (x / c))[x % c]? := by
  induction n with
  | zero => omega
  | succ m ih =>
    rw [List.range_succ, List.flatMap_append, List.flatMap_singleton]
    by_cases h : x < m * c
    · rw [List.getElem?_append_left (by rw [flatMapRange_length f c hl]; exact h)]
      exact ih h
    · have hs : (m + 1) * c = m * c + c := Nat.succ_mul m c
      have hxe : x = (x - m * c) + m * c := by omega
      have hr : x - m * c < c := by omega
      rw [List.getElem?_append_right (by rw [flatMapRange_length f c hl]; omega)]
      rw [flatMapRange_length f c hl]
      have hd : x / c = m := by
        conv_lhs => rw [hxe]
        rw [Nat.add_mul_div_right _ _ hc, Nat.div_eq_of_lt hr, Nat.zero_add]
      have hm : x % c = x - m * c := by
        conv_lhs => rw [hxe]
        rw [Nat.add_mul_mod_self_right, Nat.mod_eq_of_lt hr]
      rw [hd, hm]

theorem vcell_lt (v : Vram) (i : Nat) : vcell v i < 65536 :=
  Nat.mod_lt _ (by omega)

theorem and255_eq_mod (pp : Nat) : pp &&& 255 = pp % 256 := by
  have h := Nat.and_pow_two_sub_one_eq_mod pp 8
  norm_num at h
  exact h

theorem and15_eq_mod (pp : Nat) : pp &&& 15 = pp % 16 := by
  have h := Nat.and_pow_two_sub_one_eq_mod pp 4
  norm_num at h
  exact h

theorem shift_mod_self {pp s m : Nat} (hpp : pp < 2 ^ s * m) :
    (pp >>> s) % m = pp >>> s := by
  apply Nat.mod_eq_of_lt
  rw [Nat.shiftRight_eq_div_pow]
  exact Nat.div_lt_of_lt_mul hpp

/-- Element access into a list-of-rows texel grid: `dest[y][x]`. -/
def rowsGet (rows : List (List Nat)) (y x : Nat) : Option Nat :=
  rows[y]?.bind fun r => r[x]?

theorem decodeRow16_getElem? (conv : Nat → Nat) (v : Vram) (row x : Nat)
    (hx : x < TEXTURE_PAGE_WIDTH) :
    (decodeRow16 conv v row)[x]? = some (conv (vcell v (row + x))) := by
  unfold decodeRow16
  rw [List.getElem?_map, List.getElem?_range hx]
  rfl

theorem decodeRow8_getElem? (conv : Nat → Nat) (v : Vram) (row clut x : Nat)
    (hx : x < TEXTURE_PAGE_WIDTH) :
    (decodeRow8 conv v row clut)[x]? =
      some (conv (vcell v (clut + (vcell v (row + x / 2) >>> (8 * (x % 2))) % 256))) := by
  have hx' : x < 256 := hx
  have hchunk := flatMapRange_getElem?
    (fun xc =>
      let pp := vcell v (row + xc)
      [conv (vcell v (clut + (pp &&& 0xFF))), conv (vcell v (clut + (pp >>> 8)))])
    2 (by omega) (fun i => rfl) (TEXTURE_PAGE_WIDTH / 2) x
    (by show x < 256 / 2 * 2; omega)
  unfold decodeRow8
  rw [hchunk]
  have hsh8 : (vcell v (row + x / 2) >>> 8) % 256 = vcell v (row + x / 2) >>> 8 :=
    shift_mod_self (by have := vcell_lt v (row + x / 2); omega)
  have h2 : x % 2 = 0 ∨ x % 2 = 1 := by omega
  rcases h2 with h2 | h2 <;> rw [h2] <;> simp [and255_eq_mod, hsh8]

theorem decodeRow4_getElem? (conv : Nat → Nat) (v : Vram) (row clut x : Nat)
    (hx : x < TEXTURE_PAGE_WIDTH) :
    (decodeRow4 conv v row clut)[x]? =
      some (conv (vcell v (clut + (vcell v (row + x / 4) >>> (4 * (x % 4))) % 16))) := by
  have hx' : x < 256 := hx
  have hchunk := flatMapRange_getElem?
    (fun xc =>
      let pp := vcell v (row + xc)
      [conv (vcell v (clut + (pp &&& 0xF))), conv (vcell v (clut + ((pp >>> 4) &&& 0xF))),
       conv (vcell v (clut + ((pp >>> 8) &&& 0xF))), conv (vcell v (clut + (pp >>> 12)))])
    4 (by omega) (fun i => rfl) (TEXTURE_PAGE_WIDTH / 4) x
    (by show x < 256 / 4 * 4; omega)
  unfold decodeRow4
  rw [hchunk]
  have hsh12 : (vcell v (row + x / 4) >>> 12) % 16 = vcell v (row + x / 4) >>> 12 :=
    shift_mod_self (by have := vcell_lt v (row + x / 4); omega)
  have h4 : x % 4 = 0 ∨ x % 4 = 1 ∨ x % 4 = 2 ∨ x % 4 = 3 := by omega
  rcases h4 with h4 | h4 | h4 | h4 <;> rw [h4] <;> simp [and15_eq_mod, hsh12]

/-- C9: the decoders produce the reference mapping.  In 16-bit direct mode
`dest[y][x] = conv(page[y*VRAM_WIDTH + x])`; in 8-bit mode each cell yields
two texels, low byte then high byte, through the 256-entry CLUT; in 4-bit
mode each cell yields four texels from its nibbles in low-to-high order
through the 16-entry CLUT (`conv` is the project's
`VRAMRGBA5551ToRGBA8888`). -/
theorem C9_decoders (conv : Nat → Nat) (v : Vram) (page : Nat) (pal : PaletteReg) (y x : Nat)
    (hy : y < TEXTURE_PAGE_HEIGHT) (hx : x < TEXTURE_PAGE_WIDTH) :
    rowsGet (decodeTextureM conv v pal page .Direct16Bit) y x
        = some (conv (vcell v (pageBase page + y * VRAM_WIDTH + x))) ∧
    rowsGet (decodeTextureM conv v pal page .Palette8Bit) y x
        = some (conv (vcell v (palBase pal +
            (vcell v (pageBase page + y * VRAM_WIDTH + x / 2) >>> (8 * (x % 2))) % 256))) ∧
    rowsGet (decodeTextureM conv v pal page .Palette4Bit) y x
        = some (conv (vcell v (palBase pal +
            (vcell v (pageBase page + y * VRAM_WIDTH + x / 4) >>> (4 * (x % 4))) % 16))) := by
  refine ⟨?_, ?_, ?_⟩
  · show rowsGet (decodeTexture16M conv v (pageBase page)) y x = _
    unfold rowsGet decodeTexture16M
    rw [List.getElem?_map, List.getElem?_range hy, Option.map_some', Option.some_bind,
      decodeRow16_getElem? conv v _ x hx, Nat.add_assoc]
  · show rowsGet (decodeTexture8M conv v (pageBase page) (palBase pal)) y x = _
    unfold rowsGet decodeTexture8M
    rw [List.getElem?_map, List.getElem?_range hy, Option.map_some', Option.some_bind,
      decodeRow8_getElem? conv v _ _ x hx, Nat.add_assoc]
  · show rowsGet (decodeTexture4M conv v (pageBase page) (palBase pal)) y x = _
    unfold rowsGet decodeTexture4M
    rw [List.getElem?_map, List.getElem?_range hy, Option.map_some', Option.some_bind,
      decodeRow4_getElem? conv v _ _ x hx, Nat.add_assoc]

/-- C9 witness: the decoder equations instantiated at texel `(y, x) = (2, 5)`
of page 1 for a concrete VRAM and conversion function. -/
theorem C9_decoders_witness :
    rowsGet (decodeTextureM (fun z => z + 1) (fun i => i) ⟨3, 1⟩ 1 .Direct16Bit) 2 5
        = some ((fun z => z + 1)
            (vcell (fun i => i) (pageBase 1 + 2 * VRAM_WIDTH + 5))) ∧
    rowsGet (decodeTextureM (fun z => z + 1) (fun i => i) ⟨3, 1⟩ 1 .Palette8Bit) 2 5
        = some ((fun z => z + 1) (vcell (fun i => i) (palBase ⟨3, 1⟩ +
            (vcell (fun i => i) (pageBase 1 + 2 * VRAM_WIDTH + 5 / 2) >>> (8 * (5 % 2))) % 256))) ∧
    rowsGet (decodeTextureM (fun z => z + 1) (fun i => i) ⟨3, 1⟩ 1 .Palette4Bit) 2 5
        = some ((fun z => z + 1) (vcell (fun i => i) (palBase ⟨3, 1⟩ +
            (vcell (fun i => i) (pageBase 1 + 2 * VRAM_WIDTH + 5 / 4) >>> (4 * (5 % 4))) % 16))) :=
  C9_decoders (fun z => z + 1) (fun i => i) 1 ⟨3, 1⟩ 2 5 (by decide) (by decide)

/-! ### Cache state and the lookup path -/

/-- A hash-cache entry: the owned host texture (by device handle), the number
of live Sources borrowing it, and its age in frames. -/
structure HCEntryM where
  texture : Nat
  ref_count : Nat
  age : Nat
deriving DecidableEq

/-- A live Source.  The C++ `Source` owns its `page_refs` nodes; we record the
registered page numbers (`page_refns[0..num_page_refs)`, in registration
order) and the hash-cache entry it borrows its texture from (`from_hash_cache`,
identified by its key). -/
structure SourceM where
  key : SourceKeyM
  pageRefNs : List Nat
  fromHash : HashCacheKeyM
deriving DecidableEq

/-- The cache state: per-page intrusive lists of sources (head first), the
source store (ids standing for heap pointers), the hash cache as an
association list in iteration order, and the allocation counter. -/
structure TCState where
  pageSources : Nat → List Nat
  sources : Nat → Option SourceM
  hashCache : List (HashCacheKeyM × HCEntryM)
  nextId : Nat

/-- The list walk in `LookupSource`: first node whose source's key equals
`key` (bytewise comparison). -/
def findMatch (sources : Nat → Option SourceM) (k : SourceKeyM) : List Nat → Option Nat
  | [] => none
  | i :: t =>
    match sources i with
    | some s => if s.key = k then some i else findMatch sources k t
    | none => findMatch sources k t

/-- `ListMoveToFront`: no-op when the node is already the head, otherwise
unlink and push to the front. -/
def moveToFront (i : Nat) (l : List Nat) : List Nat :=
  if l.head? = some i then l else i :: l.erase i

/-- `hcentry->ref_count++; hcentry->age = 0;` applied through the entry
pointer, modelled by position in the association list. -/
def bumpAt : List (HashCacheKeyM × HCEntryM) → Nat → List (HashCacheKeyM × HCEntryM)
  | [], _ => []
  | e :: t, 0 => (e.1, ⟨e.2.texture, e.2.ref_count + 1, 0⟩) :: t
  | e :: t, n + 1 => e :: bumpAt t n

/-- `m_hash_cache.find(hkey)`: the position of the entry with the given key
(keys are unique in the map). -/
def hcFindIdx (hkey : HashCacheKeyM) : List (HashCacheKeyM × HCEntryM) → Option Nat
  | [] => none
  | p :: t => if p.1 = hkey then some 0 else (hcFindIdx hkey t).map (· + 1)

/-- `GPUTextureCache::LookupHashCache(key)`: build the `HashCacheKey` (`none`
when `HashPage` hits its unreachable default), probe the map; on miss fetch a
texture from the device (`fetch`, `none` on allocation failure), decode into
it and insert.  Returns the entry's identity (key and position). -/
def lookupHashCacheM (v : Vram) (fetch : Option Nat) (k : SourceKeyM) (st : TCState) :
    Option (HashCacheKeyM × Nat) × TCState :=
  match hashCacheKeyOf v k with
  | none => (none, st)
  | some hkey =>
    match hcFindIdx hkey st.hashCache with
    | some idx => (some (hkey, idx), st)
    | none =>
      match fetch with
      | none => (none, st)
      | some tex =>
        (some (hkey, st.hashCache.length),
         { st with hashCache := st.hashCache ++ [(hkey, ⟨tex, 0, 0⟩)] })

/-- `GPUTextureCache::CreateSource(key)`: look up (or create) the hash-cache
entry, bump its refcount, allocate the Source, register it on the footprint
pages (`ListPrepend`) and, for paletted modes, on the CLUT pages
(`ListAppend`), deduplicating page numbers. -/
def createSourceM (v : Vram) (fetch : Option Nat) (k : SourceKeyM) (st : TCState) :
    Option Nat × TCState :=
  match lookupHashCacheM v fetch k st with
  | (none, st₁) => (none, st₁)
  | (some (hkey, idx), st₁) =>
    let fp := sourcePagesFp k
    let allp := sourcePagesAll k
    let srcId := st₁.nextId
    (some srcId,
     { pageSources := fun p =>
         if p ∈ fp then srcId :: st₁.pageSources p
         else if p ∈ allp then st₁.pageSources p ++ [srcId]
         else st₁.pageSources p,
       sources := fun j => if j = srcId then some ⟨k, allp, hkey⟩ else st₁.sources j,
       hashCache := bumpAt st₁.hashCache idx,
       nextId := srcId + 1 })

/-- `GPUTextureCache::LookupSource(key)`: walk the primary page's list; on a
key match move the node to the front and return the source; on miss defer to
`CreateSource`. -/
def lookupSourceM (v : Vram) (fetch : Option Nat) (k : SourceKeyM) (st : TCState) :
    Option Nat × TCState :=
  match findMatch st.sources k (st.pageSources k.page) with
  | some i =>
    (some i,
     { st with pageSources := fun p =>
         if p = k.page then moveToFront i (st.pageSources p) else st.pageSources p })
  | none => createSourceM v fetch k st

/-- C8: when the page walk misses, `HashPage` is computable for the mode, the
hash-cache probe misses and the device's `FetchTexture` returns null, then
`LookupSource` returns null and the whole cache state is unchanged: no
hash-cache entry inserted, no refcount modified, no Source allocated, no page
list touched. -/
theorem C8_fetch_fail (v : Vram) (k : SourceKeyM) (st : TCState) (hkey : HashCacheKeyM)
    (hpage : findMatch st.sources k (st.pageSources k.page) = none)
    (hhk : hashCacheKeyOf v k = some hkey)
    (hmiss : hcFindIdx hkey st.hashCache = none) :
    lookupSourceM v none k st = (none, st) := by
  have h1 : lookupHashCacheM v none k st = (none, st) := by
    unfold lookupHashCacheM
    rw [hhk]
    dsimp only
    rw [hmiss]
  unfold lookupSourceM
  rw [hpage]
  unfold createSourceM
  rw [h1]

/-- C8 witness: a concrete failing allocation against the empty cache. -/
theorem C8_fetch_fail_witness :
    lookupSourceM (fun _ => 0) none ⟨0, .Direct16Bit, ⟨0, 0⟩⟩
      ⟨fun _ => [], fun _ => none, [], 0⟩
      = (none, ⟨fun _ => [], fun _ => none, [], 0⟩) := by
  have hs : (hashCacheKeyOf (fun _ => 0) ⟨0, .Direct16Bit, ⟨0, 0⟩⟩).isSome = true := rfl
  exact C8_fetch_fail (fun _ => 0) ⟨0, .Direct16Bit, ⟨0, 0⟩⟩
    ⟨fun _ => [], fun _ => none, [], 0⟩
    ((hashCacheKeyOf (fun _ => 0) ⟨0, .Direct16Bit, ⟨0, 0⟩⟩).get hs)
    rfl (Option.some_get hs).symm rfl

/-! ### Lookup idempotence (C7) -/

theorem mem_dedupAdd {a : Nat} (acc l : List Nat) :
    a ∈ dedupAdd acc l ↔ a ∈ acc ∨ a ∈ l := by
  induction l generalizing acc with
  | nil => simp [dedupAdd]
  | cons x t ih =>
    have hstep : dedupAdd acc (x :: t) = dedupAdd (if x ∈ acc then acc else acc ++ [x]) t := rfl
    rw [hstep, ih]
    by_cases hx : x ∈ acc
    · rw [if_pos hx]
      simp only [List.mem_cons]
      constructor
      · rintro (h | h)
        · exact Or.inl h
        · exact Or.inr (Or.inr h)
      · rintro (h | h | h)
        · exact Or.inl h
        · exact Or.inl (by rw [h]; exact hx)
        · exact Or.inr h
    · rw [if_neg hx]
      simp only [List.mem_append, List.mem_singleton, List.mem_cons]
      tauto

theorem loopPagesList_base_mem (x y w h : Nat) :
    pageIndexM (x / VRAM_PAGE_WIDTH) (y / VRAM_PAGE_HEIGHT) ∈ loopPagesList x y w h := by
  unfold loopPagesList
  refine List.mem_flatMap.mpr ⟨0, List.mem_range.mpr (by omega), ?_⟩
  exact List.mem_map.mpr ⟨0, List.mem_range.mpr (by omega), by omega⟩

theorem page_mem_sourcePagesFp (k : SourceKeyM) : k.page ∈ sourcePagesFp k := by
  unfold sourcePagesFp
  rw [mem_dedupAdd]
  right
  have h := loopPagesList_base_mem (pageStartX k.page) (pageStartY k.page)
    (widthForMode k.mode) TEXTURE_PAGE_HEIGHT
  have hx : pageStartX k.page / VRAM_PAGE_WIDTH = k.page % VRAM_PAGES_WIDE := by
    simp only [pageStartX, VRAM_PAGE_WIDTH, VRAM_PAGES_WIDE, VRAM_WIDTH]
    omega
  have hy : pageStartY k.page / VRAM_PAGE_HEIGHT = k.page / VRAM_PAGES_WIDE := by
    simp only [pageStartY, VRAM_PAGE_HEIGHT, VRAM_PAGES_WIDE, VRAM_WIDTH]
    omega
  have hpi : pageIndexM (k.page % VRAM_PAGES_WIDE) (k.page / VRAM_PAGES_WIDE) = k.page := by
    simp only [pageIndexM, VRAM_PAGES_WIDE, VRAM_WIDTH, VRAM_PAGE_WIDTH]
    omega
  rw [hx, hy, hpi] at h
  exact h

theorem page_mem_sourcePagesAll (k : SourceKeyM) : k.page ∈ sourcePagesAll k := by
  unfold sourcePagesAll
  split
  · rw [mem_dedupAdd]
    exact Or.inl (page_mem_sourcePagesFp k)
  · exact page_mem_sourcePagesFp k

theorem findMatch_some {srcs : Nat → Option SourceM} {k : SourceKeyM} {l : List Nat} {i : Nat}
    (h : findMatch srcs k l = some i) : ∃ s, srcs i = some s ∧ s.key = k := by
  induction l with
  | nil => simp [findMatch] at h
  | cons a t ih =>
    unfold findMatch at h
    cases hs : srcs a with
    | none => rw [hs] at h; exact ih h
    | some s =>
      rw [hs] at h
      replace h : (if s.key = k then some a else findMatch srcs k t) = some i := h
      by_cases hk : s.key = k
      · rw [if_pos hk] at h
        cases h
        exact ⟨s, hs, hk⟩
      · rw [if_neg hk] at h
        exact ih h

theorem findMatch_cons_self {srcs : Nat → Option SourceM} {k : SourceKeyM} {i : Nat} {s : SourceM}
    (hs : srcs i = some s) (hk : s.key = k) (t : List Nat) :
    findMatch srcs k (i :: t) = some i := by
  unfold findMatch
  rw [hs]
  show (if s.key = k then some i else findMatch srcs k t) = some i
  rw [if_pos hk]

theorem moveToFront_head (i : Nat) (l : List Nat) : (moveToFront i l).head? = some i := by
  unfold moveToFront
  split
  · next h => exact h
  · rfl

theorem findMatch_moveToFront {srcs : Nat → Option SourceM} {k : SourceKeyM} {i : Nat}
    {s : SourceM} (hs : srcs i = some s) (hk : s.key = k) (l : List Nat) :
    findMatch srcs k (moveToFront i l) = some i := by
  unfold moveToFront
  split
  · next h =>
    cases l with
    | nil => simp at h
    | cons a t =>
      simp only [List.head?_cons, Option.some.injEq] at h
      rw [h]
      exact findMatch_cons_self hs hk t
  · exact findMatch_cons_self hs hk _

/-- C7: after a successful `LookupSource(k)` (with no intervening invalidation,
clear or VRAM change), a second `LookupSource(k)` returns the same Source,
modifies nothing except moving the matching node to the front of the primary
page's list, allocates no Source (`sources`, `nextId` unchanged) and no
hash-cache entry, and leaves every refcount unchanged (`hashCache` unchanged). -/
theorem C7_lookup_idempotent (v : Vram) (f₁ f₂ : Option Nat) (k : SourceKeyM)
    (st st₁ : TCState) (i : Nat) (h : lookupSourceM v f₁ k st = (some i, st₁)) :
    lookupSourceM v f₂ k st₁ =
      (some i,
       { st₁ with pageSources := fun p =>
           if p = k.page then moveToFront i (st₁.pageSources p) else st₁.pageSources p }) ∧
    ((lookupSourceM v f₂ k st₁).2.pageSources k.page).head? = some i ∧
    (lookupSourceM v f₂ k st₁).2.sources = st₁.sources ∧
    (lookupSourceM v f₂ k st₁).2.hashCache = st₁.hashCache ∧
    (lookupSourceM v f₂ k st₁).2.nextId = st₁.nextId := by
  have hmatch : findMatch st₁.sources k (st₁.pageSources k.page) = some i := by
    unfold lookupSourceM at h
    cases hfm : findMatch st.sources k (st.pageSources k.page) with
    | some j =>
      rw [hfm] at h
      obtain ⟨hji, hst⟩ := Prod.mk.injEq .. ▸ h
      cases hji
      obtain ⟨s, hs, hk⟩ := findMatch_some hfm
      have hsrc : st₁.sources = st.sources := by rw [← hst]
      have hps : st₁.pageSources k.page = moveToFront i (st.pageSources k.page) := by
        rw [← hst]; simp
      rw [hsrc, hps]
      exact findMatch_moveToFront hs hk _
    | none =>
      rw [hfm] at h
      unfold createSourceM at h
      cases hlk : lookupHashCacheM v f₁ k st with
      | mk r stx =>
        rw [hlk] at h
        cases r with
        | none => simp at h
        | some pr =>
          obtain ⟨hkey, idx⟩ := pr
          simp only at h
          obtain ⟨hji, hst⟩ := Prod.mk.injEq .. ▸ h
          cases hji
          have hsrc : st₁.sources stx.nextId = some ⟨k, sourcePagesAll k, hkey⟩ := by
            rw [← hst]; simp
          have hps : st₁.pageSources k.page = stx.nextId :: stx.pageSources k.page := by
            rw [← hst]; simp [page_mem_sourcePagesFp k]
          rw [hps]
          exact findMatch_cons_self hsrc rfl _
  have hres : lookupSourceM v f₂ k st₁ =
      (some i,
       { st₁ with pageSources := fun p =>
           if p = k.page then moveToFront i (st₁.pageSources p) else st₁.pageSources p }) := by
    unfold lookupSourceM
    rw [hmatch]
  refine ⟨hres, ?_, ?_, ?_, ?_⟩ <;> rw [hres]
  show (if k.page = k.page then moveToFront i (st₁.pageSources k.page)
    else st₁.pageSources k.page).head? = some i
  rw [if_pos rfl]
  exact moveToFront_head i _

/-- A concrete key for exercising the lookup path. -/
def c7key : SourceKeyM := ⟨0, .Direct16Bit, ⟨0, 0⟩⟩

/-- A concrete cache state holding one source (id 5) for `c7key` on page 0,
borrowing from one hash-cache entry with `ref_count = 1`. -/
def c7state : TCState where
  pageSources := fun p => if p = 0 then [5] else []
  sources := fun i => if i = 5 then some ⟨c7key, [0], ⟨[], none, 2⟩⟩ else none
  hashCache := [(⟨[], none, 2⟩, ⟨7, 1, 0⟩)]
  nextId := 6

/-- C7 witness: both lookups return source 5 and the second leaves the hash
cache untouched. -/
theorem C7_lookup_idempotent_witness :
    (lookupSourceM (fun _ => 0) none c7key
        ((lookupSourceM (fun _ => 0) none c7key c7state).2)).1 = some 5 ∧
    (lookupSourceM (fun _ => 0) none c7key
        ((lookupSourceM (fun _ => 0) none c7key c7state).2)).2.hashCache
      = ((lookupSourceM (fun _ => 0) none c7key c7state).2).hashCache := by
  have h : lookupSourceM (fun _ => 0) none c7key c7state
      = (some 5, (lookupSourceM (fun _ => 0) none c7key c7state).2) := rfl
  have H := C7_lookup_idempotent (fun _ => 0) none none c7key c7state
    ((lookupSourceM (fun _ => 0) none c7key c7state).2) 5 h
  exact ⟨by rw [H.1], H.2.2.2.1⟩

/-! ### Aging and eviction (C6, C10) -/

def MAX_HASH_CACHE_AGE : Nat := 600
def MAX_HASH_CACHE_SIZE : Nat := 200

/-- The state after the aging loop of `AgeHashCache`: the surviving entries
tagged with their position (iterator identity), the map's size, the final
`might_need_cache_purge` flag and the collected `s_hash_cache_purge_list`
(position, age after increment). -/
structure Pass1Out where
  kept : List (Nat × HashCacheKeyM × HCEntryM)
  size : Nat
  flag : Bool
  purge : List (Nat × Nat)

/-- The aging loop of `AgeHashCache`, iterating the map in order (`idx` is the
current iterator position, `size` the current `m_hash_cache.size()`, `flag`
the current `might_need_cache_purge`): entries with `ref_count > 0` are
skipped; otherwise the age is incremented and the entry removed when it
exceeds `MAX_HASH_CACHE_AGE`; surviving zero-refcount entries re-evaluate the
flag and, while it is set, are pushed onto the purge list. -/
def pass1M : List (HashCacheKeyM × HCEntryM) → Nat → Nat → Bool → Pass1Out
  | [], _, size, flag => ⟨[], size, flag, []⟩
  | (kk, e) :: rest, idx, size, flag =>
    if 0 < e.ref_count then
      let o := pass1M rest (idx + 1) size flag
      ⟨(idx, kk, e) :: o.kept, o.size, o.flag, o.purge⟩
    else if MAX_HASH_CACHE_AGE < e.age + 1 then
      let o := pass1M rest (idx + 1) (size - 1) flag
      ⟨o.kept, o.size, o.flag, o.purge⟩
    else if flag then
      if MAX_HASH_CACHE_SIZE < size then
        let o := pass1M rest (idx + 1) size true
        ⟨(idx, kk, { e with age := e.age + 1 }) :: o.kept, o.size, o.flag,
         (idx, e.age + 1) :: o.purge⟩
      else
        let o := pass1M rest (idx + 1) size false
        ⟨(idx, kk, { e with age := e.age + 1 }) :: o.kept, o.size, o.flag, o.purge⟩
    else
      let o := pass1M rest (idx + 1) size false
      ⟨(idx, kk, { e with age := e.age + 1 }) :: o.kept, o.size, o.flag, o.purge⟩

/-- Insertion step of `std::sort` with comparator `lhs.second > rhs.second`
(descending by age; tie order is unspecified in the code). -/
def insertAgeDesc (x : Nat × Nat) : List (Nat × Nat) → List (Nat × Nat)
  | [] => [x]
  | y :: t => if y.2 < x.2 then x :: y :: t else y :: insertAgeDesc x t

def sortAgeDesc (l : List (Nat × Nat)) : List (Nat × Nat) :=
  l.foldr insertAgeDesc []

/-- `static_cast<u32>(a - b)` where `a - b` is computed on `size_t`. -/
def u32sub (a b : Nat) : Nat := ((a + 2 ^ 64 - b) % 2 ^ 64) % 2 ^ 32

/-- `entries_to_purge = min(u32(size() - MAX_HASH_CACHE_SIZE), u32(purge_list.size()))`. -/
def purgeCount (o : Pass1Out) : Nat :=
  min (u32sub o.size MAX_HASH_CACHE_SIZE) (o.purge.length % 2 ^ 32)

/-- The iterator positions removed by the purge phase: the first
`entries_to_purge` elements of the purge list sorted by age descending. -/
def victimsOf (o : Pass1Out) : List Nat :=
  ((sortAgeDesc o.purge).take (purgeCount o)).map Prod.fst

/-- The tail of `AgeHashCache` after the aging loop: if `might_need_cache_purge`
is still set, remove the victims from the surviving entries. -/
def agePurgeStep (o : Pass1Out) : List (HashCacheKeyM × HCEntryM) :=
  if o.flag then
    (o.kept.filter fun t => !((victimsOf o).contains t.1)).map fun t => t.2
  else
    o.kept.map fun t => t.2

/-- `GPUTextureCache::AgeHashCache()`: run the aging loop (the initial flag is
`m_hash_cache.size() > MAX_HASH_CACHE_SIZE`), then the purge phase. -/
def ageHashCacheM (l : List (HashCacheKeyM × HCEntryM)) : List (HashCacheKeyM × HCEntryM) :=
  agePurgeStep (pass1M l 0 l.length (decide (MAX_HASH_CACHE_SIZE < l.length)))

/-- Modelled from the claim's words (C6), pass 1: skip entries with
`ref_count > 0`; increment the age of zero-refcount entries and remove them
exactly when the incremented age exceeds `MAX_HASH_CACHE_AGE`. -/
def survivorStep (p : HashCacheKeyM × HCEntryM) : Option (HashCacheKeyM × HCEntryM) :=
  if 0 < p.2.ref_count then some p
  else if MAX_HASH_CACHE_AGE < p.2.age + 1 then none
  else some (p.1, { p.2 with age := p.2.age + 1 })

/-- Modelled from the claim's words (C6): after pass 1, only if the size still
exceeds `MAX_HASH_CACHE_SIZE`, remove zero-refcount survivors in descending
age order until the size is at most `MAX_HASH_CACHE_SIZE` or no candidates
remain. -/
def ageHashCacheSpecM (l : List (HashCacheKeyM × HCEntryM)) : List (HashCacheKeyM × HCEntryM) :=
  let survivors := l.filterMap survivorStep
  if MAX_HASH_CACHE_SIZE < survivors.length then
    let cands := survivors.enum.filter fun t => t.2.2.ref_count == 0
    let victims := ((sortAgeDesc (cands.map fun t => (t.1, t.2.2.age))).take
      (survivors.length - MAX_HASH_CACHE_SIZE)).map Prod.fst
    (survivors.enum.filter fun t => !(victims.contains t.1)).map fun t => t.2
  else
    survivors

/-- The C6 counterexample state: one young zero-refcount entry, two about to
age out, and 198 referenced entries — 201 entries in total. -/
def c6list : List (HashCacheKeyM × HCEntryM) :=
  (⟨[0], none, 2⟩, ⟨0, 0, 0⟩) ::
  (⟨[1], none, 2⟩, ⟨0, 0, 600⟩) ::
  (⟨[2], none, 2⟩, ⟨0, 0, 600⟩) ::
  ((List.range 198).map fun i => (⟨[i + 3], none, 2⟩, ⟨0, 1, 0⟩))

/-- C6 counterexample: on `c6list` the size after pass 1 is 199 ≤ 200, so by
the claim no purge may happen and the young zero-refcount entry (incremented
to age 1) must survive; the code still purges it, because the purge flag was
last evaluated before the two age-evictions and `size() - MAX_HASH_CACHE_SIZE`
underflows in unsigned arithmetic. -/
theorem C6_age_counterexample :
    (pass1M c6list 0 c6list.length (decide (MAX_HASH_CACHE_SIZE < c6list.length))).size
        ≤ MAX_HASH_CACHE_SIZE ∧
    (⟨[0], none, 2⟩, (⟨0, 0, 1⟩ : HCEntryM)) ∈ ageHashCacheSpecM c6list ∧
    (⟨[0], none, 2⟩, (⟨0, 0, 1⟩ : HCEntryM)) ∉ ageHashCacheM c6list ∧
    ageHashCacheM c6list ≠ ageHashCacheSpecM c6list := by
  set_option maxRecDepth 10000 in decide

/-! ### Properties of the aging pass -/

theorem pass1M_flag_false (l : List (HashCacheKeyM × HCEntryM)) :
    ∀ idx size, (pass1M l idx size false).flag = false := by
  induction l with
  | nil => intro idx size; rfl
  | cons p rest ih =>
    intro idx size
    obtain ⟨kk, e⟩ := p
    unfold pass1M
    by_cases h1 : 0 < e.ref_count
    · rw [if_pos h1]; exact ih (idx + 1) size
    · rw [if_neg h1]
      by_cases h2 : MAX_HASH_CACHE_AGE < e.age + 1
      · rw [if_pos h2]; exact ih (idx + 1) (size - 1)
      · rw [if_neg h2, if_neg (by simp : ¬ (false = true))]
        exact ih (idx + 1) size

theorem pass1M_kept_map (l : List (HashCacheKeyM × HCEntryM)) :
    ∀ idx size flag,
      (pass1M l idx size flag).kept.map (fun t => t.2) = l.filterMap survivorStep := by
  induction l with
  | nil => intro idx size flag; rfl
  | cons p rest ih =>
    intro idx size flag
    obtain ⟨kk, e⟩ := p
    unfold pass1M
    rw [List.filterMap_cons]
    by_cases h1 : 0 < e.ref_count
    · rw [if_pos h1, show survivorStep (kk, e) = some (kk, e) from by
        unfold survivorStep; rw [if_pos h1]]
      simp only [List.map_cons]
      rw [ih (idx + 1) size flag]
    · rw [if_neg h1]
      by_cases h2 : MAX_HASH_CACHE_AGE < e.age + 1
      · rw [if_pos h2, show survivorStep (kk, e) = none from by
          unfold survivorStep; rw [if_neg h1, if_pos h2]]
        exact ih (idx + 1) (size - 1) flag
      · rw [if_neg h2, show survivorStep (kk, e) = some (kk, { e with age := e.age + 1 }) from by
          unfold survivorStep; rw [if_neg h1, if_neg h2]]
        cases flag with
        | false =>
          rw [if_neg (by simp : ¬ (false = true))]
          simp only [List.map_cons]
          rw [ih (idx + 1) size false]
        | true =>
          rw [if_pos rfl]
          by_cases h3 : MAX_HASH_CACHE_SIZE < size
          · rw [if_pos h3]
            simp only [List.map_cons]
            rw [ih (idx + 1) size true]
          · rw [if_neg h3]
            simp only [List.map_cons]
            rw [ih (idx + 1) size false]

theorem pass1M_size (l : List (HashCacheKeyM × HCEntryM)) :
    ∀ idx size flag, l.length ≤ size →
      (pass1M l idx size flag).size + l.length
        = size + (pass1M l idx size flag).kept.length := by
  induction l with
  | nil => intro idx size flag _; simp [pass1M]
  | cons p rest ih =>
    intro idx size flag hle
    obtain ⟨kk, e⟩ := p
    simp only [List.length_cons] at hle
    unfold pass1M
    by_cases h1 : 0 < e.ref_count
    · rw [if_pos h1]
      have h := ih (idx + 1) size flag (by omega)
      dsimp only
      simp only [List.length_cons]
      omega
    · rw [if_neg h1]
      by_cases h2 : MAX_HASH_CACHE_AGE < e.age + 1
      · rw [if_pos h2]
        have h := ih (idx + 1) (size - 1) flag (by omega)
        dsimp only
        simp only [List.length_cons]
        omega
      · rw [if_neg h2]
        cases flag with
        | false =>
          rw [if_neg (by simp : ¬ (false = true))]
          have h := ih (idx + 1) size false (by omega)
          dsimp only
          simp only [List.length_cons]
          omega
        | true =>
          rw [if_pos rfl]
          by_cases h3 : MAX_HASH_CACHE_SIZE < size
          · rw [if_pos h3]
            have h := ih (idx + 1) size true (by omega)
            dsimp only
            simp only [List.length_cons]
            omega
          · rw [if_neg h3]
            have h := ih (idx + 1) size false (by omega)
            dsimp only
            simp only [List.length_cons]
            omega

theorem pass1M_flag_false_size (l : List (HashCacheKeyM × HCEntryM)) :
    ∀ idx size flag, (flag = false → size ≤ MAX_HASH_CACHE_SIZE) →
      (pass1M l idx size flag).flag = false →
      (pass1M l idx size flag).size ≤ MAX_HASH_CACHE_SIZE := by
  induction l with
  | nil =>
    intro idx size flag hpre hf
    exact hpre hf
  | cons p rest ih =>
    intro idx size flag hpre hf
    obtain ⟨kk, e⟩ := p
    unfold pass1M at hf ⊢
    by_cases h1 : 0 < e.ref_count
    · rw [if_pos h1] at hf ⊢; exact ih (idx + 1) size flag hpre hf
    · rw [if_neg h1] at hf ⊢
      by_cases h2 : MAX_HASH_CACHE_AGE < e.age + 1
      · rw [if_pos h2] at hf ⊢
        exact ih (idx + 1) (size - 1) flag (fun h => by have := hpre h; omega) hf
      · rw [if_neg h2] at hf ⊢
        cases flag with
        | false =>
          rw [if_neg (by simp : ¬ (false = true))] at hf ⊢
          exact ih (idx + 1) size false hpre hf
        | true =>
          rw [if_pos rfl] at hf ⊢
          by_cases h3 : MAX_HASH_CACHE_SIZE < size
          · rw [if_pos h3] at hf ⊢
            exact ih (idx + 1) size true (by simp) hf
          · rw [if_neg h3] at hf ⊢
            exact ih (idx + 1) size false (fun _ => by omega) hf

theorem pass1M_idx_lb (l : List (HashCacheKeyM × HCEntryM)) :
    ∀ idx size flag,
      (∀ t ∈ (pass1M l idx size flag).kept, idx ≤ t.1) ∧
      (∀ t ∈ (pass1M l idx size flag).purge, idx ≤ t.1) := by
  induction l with
  | nil => intro idx size flag; exact ⟨fun t ht => by simp [pass1M] at ht,
      fun t ht => by simp [pass1M] at ht⟩
  | cons p rest ih =>
    intro idx size flag
    obtain ⟨kk, e⟩ := p
    have next := fun size flag => ih (idx + 1) size flag
    unfold pass1M
    by_cases h1 : 0 < e.ref_count
    · rw [if_pos h1]
      dsimp only
      refine ⟨fun t ht => ?_, fun t ht => ?_⟩
      · rcases List.mem_cons.mp ht with h | h
        · rw [h]
        · exact Nat.le_of_succ_le ((next size flag).1 t h)
      · exact Nat.le_of_succ_le ((next size flag).2 t ht)
    · rw [if_neg h1]
      by_cases h2 : MAX_HASH_CACHE_AGE < e.age + 1
      · rw [if_pos h2]
        dsimp only
        exact ⟨fun t ht => Nat.le_of_succ_le ((next (size - 1) flag).1 t ht),
          fun t ht => Nat.le_of_succ_le ((next (size - 1) flag).2 t ht)⟩
      · rw [if_neg h2]
        cases flag with
        | false =>
          rw [if_neg (by simp : ¬ (false = true))]
          dsimp only
          refine ⟨fun t ht => ?_, fun t ht => ?_⟩
          · rcases List.mem_cons.mp ht with h | h
            · rw [h]
            · exact Nat.le_of_succ_le ((next size false).1 t h)
          · exact Nat.le_of_succ_le ((next size false).2 t ht)
        | true =>
          rw [if_pos rfl]
          by_cases h3 : MAX_HASH_CACHE_SIZE < size
          · rw [if_pos h3]
            dsimp only
            refine ⟨fun t ht => ?_, fun t ht => ?_⟩
            · rcases List.mem_cons.mp ht with h | h
              · rw [h]
              · exact Nat.le_of_succ_le ((next size true).1 t h)
            · rcases List.mem_cons.mp ht with h | h
              · rw [h]
              · exact Nat.le_of_succ_le ((next size true).2 t h)
          · rw [if_neg h3]
            dsimp only
            refine ⟨fun t ht => ?_, fun t ht => ?_⟩
            · rcases List.mem_cons.mp ht with h | h
              · rw [h]
              · exact Nat.le_of_succ_le ((next size false).1 t h)
            · exact Nat.le_of_succ_le ((next size false).2 t ht)

theorem pass1M_pairwise (l : List (HashCacheKeyM × HCEntryM)) :
    ∀ idx size flag,
      (pass1M l idx size flag).kept.Pairwise (fun a b => a.1 < b.1) ∧
      (pass1M l idx size flag).purge.Pairwise (fun a b => a.1 < b.1) := by
  induction l with
  | nil => intro idx size flag; exact ⟨List.Pairwise.nil, List.Pairwise.nil⟩
  | cons p rest ih =>
    intro idx size flag
    obtain ⟨kk, e⟩ := p
    have hlb := fun size flag => pass1M_idx_lb rest (idx + 1) size flag
    have next := fun size flag => ih (idx + 1) size flag
    unfold pass1M
    by_cases h1 : 0 < e.ref_count
    · rw [if_pos h1]
      dsimp only
      exact ⟨List.Pairwise.cons (fun b hb => (hlb size flag).1 b hb) (next size flag).1,
        (next size flag).2⟩
    · rw [if_neg h1]
      by_cases h2 : MAX_HASH_CACHE_AGE < e.age + 1
      · rw [if_pos h2]
        dsimp only
        exact ⟨(next (size - 1) flag).1, (next (size - 1) flag).2⟩
      · rw [if_neg h2]
        cases flag with
        | false =>
          rw [if_neg (by simp : ¬ (false = true))]
          dsimp only
          exact ⟨List.Pairwise.cons (fun b hb => (hlb size false).1 b hb) (next size false).1,
            (next size false).2⟩
        | true =>
          rw [if_pos rfl]
          by_cases h3 : MAX_HASH_CACHE_SIZE < size
          · rw [if_pos h3]
            dsimp only
            exact ⟨List.Pairwise.cons (fun b hb => (hlb size true).1 b hb) (next size true).1,
              List.Pairwise.cons (fun b hb => (hlb size true).2 b hb) (next size true).2⟩
          · rw [if_neg h3]
            dsimp only
            exact ⟨List.Pairwise.cons (fun b hb => (hlb size false).1 b hb) (next size false).1,
              (next size false).2⟩

theorem pass1M_refd_not_purged (l : List (HashCacheKeyM × HCEntryM)) :
    ∀ idx size flag j kk e,
      (j, kk, e) ∈ (pass1M l idx size flag).kept → 0 < e.ref_count →
      ∀ a, (j, a) ∉ (pass1M l idx size flag).purge := by
  induction l with
  | nil => intro idx size flag j kk e hmem _ a hp; simp [pass1M] at hmem
  | cons p rest ih =>
    intro idx size flag j kk e hmem href a hp
    obtain ⟨kp, ep⟩ := p
    have hlb := fun size flag => pass1M_idx_lb rest (idx + 1) size flag
    unfold pass1M at hmem hp
    by_cases h1 : 0 < ep.ref_count
    · rw [if_pos h1] at hmem hp
      rcases List.mem_cons.mp hmem with h | h
      · cases h
        have hge := (hlb size flag).2 (idx, a) hp
        omega
      · exact ih (idx + 1) size flag j kk e h href a hp
    · rw [if_neg h1] at hmem hp
      by_cases h2 : MAX_HASH_CACHE_AGE < ep.age + 1
      · rw [if_pos h2] at hmem hp
        exact ih (idx + 1) (size - 1) flag j kk e hmem href a hp
      · rw [if_neg h2] at hmem hp
        cases flag with
        | false =>
          rw [if_neg (by simp : ¬ (false = true))] at hmem hp
          rcases List.mem_cons.mp hmem with h | h
          · cases h
            exact h1 href
          · exact ih (idx + 1) size false j kk e h href a hp
        | true =>
          rw [if_pos rfl] at hmem hp
          by_cases h3 : MAX_HASH_CACHE_SIZE < size
          · rw [if_pos h3] at hmem hp
            rcases List.mem_cons.mp hmem with h | h
            · cases h
              exact h1 href
            · rcases List.mem_cons.mp hp with h4 | h4
              · have hge := (hlb size true).1 (j, kk, e) h
                cases h4
                omega
              · exact ih (idx + 1) size true j kk e h href a h4
          · rw [if_neg h3] at hmem hp
            rcases List.mem_cons.mp hmem with h | h
            · cases h
              exact h1 href
            · exact ih (idx + 1) size false j kk e h href a hp

theorem pass1M_purge_mem_kept (l : List (HashCacheKeyM × HCEntryM)) :
    ∀ idx size flag t,
      t ∈ (pass1M l idx size flag).purge →
      ∃ kk e, (t.1, kk, e) ∈ (pass1M l idx size flag).kept := by
  induction l with
  | nil => intro idx size flag t ht; simp [pass1M] at ht
  | cons p rest ih =>
    intro idx size flag t ht
    obtain ⟨kp, ep⟩ := p
    unfold pass1M at ht ⊢
    by_cases h1 : 0 < ep.ref_count
    · rw [if_pos h1] at ht ⊢
      obtain ⟨kk, e, hm⟩ := ih (idx + 1) size flag t ht
      exact ⟨kk, e, List.mem_cons_of_mem _ hm⟩
    · rw [if_neg h1] at ht ⊢
      by_cases h2 : MAX_HASH_CACHE_AGE < ep.age + 1
      · rw [if_pos h2] at ht ⊢
        exact ih (idx + 1) (size - 1) flag t ht
      · rw [if_neg h2] at ht ⊢
        cases flag with
        | false =>
          rw [if_neg (by simp : ¬ (false = true))] at ht ⊢
          obtain ⟨kk, e, hm⟩ := ih (idx + 1) size false t ht
          exact ⟨kk, e, List.mem_cons_of_mem _ hm⟩
        | true =>
          rw [if_pos rfl] at ht ⊢
          by_cases h3 : MAX_HASH_CACHE_SIZE < size
          · rw [if_pos h3] at ht ⊢
            rcases List.mem_cons.mp ht with h | h
            · refine ⟨kp, { ep with age := ep.age + 1 }, ?_⟩
              rw [h]
              exact List.mem_cons_self _ _
            · obtain ⟨kk, e, hm⟩ := ih (idx + 1) size true t h
              exact ⟨kk, e, List.mem_cons_of_mem _ hm⟩
          · rw [if_neg h3] at ht ⊢
            obtain ⟨kk, e, hm⟩ := ih (idx + 1) size false t ht
            exact ⟨kk, e, List.mem_cons_of_mem _ hm⟩

theorem pass1M_allzero_kept_purged (l : List (HashCacheKeyM × HCEntryM)) :
    ∀ idx size flag,
      (∀ p ∈ l, p.2.ref_count = 0) → (pass1M l idx size flag).flag = true →
      ∀ t ∈ (pass1M l idx size flag).kept,
        ∃ a, (t.1, a) ∈ (pass1M l idx size flag).purge := by
  induction l with
  | nil => intro idx size flag _ _ t ht; simp [pass1M] at ht
  | cons p rest ih =>
    intro idx size flag hz hf t ht
    obtain ⟨kp, ep⟩ := p
    have hz0 : ep.ref_count = 0 := hz (kp, ep) (List.mem_cons_self _ _)
    have hzrest : ∀ p ∈ rest, p.2.ref_count = 0 := fun p hp => hz p (List.mem_cons_of_mem _ hp)
    unfold pass1M at hf ht ⊢
    rw [if_neg (by omega : ¬ 0 < ep.ref_count)] at hf ht ⊢
    by_cases h2 : MAX_HASH_CACHE_AGE < ep.age + 1
    · rw [if_pos h2] at hf ht ⊢
      exact ih (idx + 1) (size - 1) flag hzrest hf t ht
    · rw [if_neg h2] at hf ht ⊢
      cases flag with
      | false =>
        rw [if_neg (by simp : ¬ (false = true))] at hf ht ⊢
        have := pass1M_flag_false rest (idx + 1) size
        dsimp only at hf
        rw [this] at hf
        cases hf
      | true =>
        rw [if_pos rfl] at hf ht ⊢
        by_cases h3 : MAX_HASH_CACHE_SIZE < size
        · rw [if_pos h3] at hf ht ⊢
          rcases List.mem_cons.mp ht with h | h
          · exact ⟨ep.age + 1, by rw [h]; exact List.mem_cons_self _ _⟩
          · obtain ⟨a, ha⟩ := ih (idx + 1) size true hzrest hf t h
            exact ⟨a, List.mem_cons_of_mem _ ha⟩
        · rw [if_neg h3] at hf ht ⊢
          have := pass1M_flag_false rest (idx + 1) size
          dsimp only at hf
          rw [this] at hf
          cases hf

theorem pass1M_purge_length_le (l : List (HashCacheKeyM × HCEntryM)) :
    ∀ idx size flag, (pass1M l idx size flag).purge.length ≤ l.length := by
  induction l with
  | nil => intro idx size flag; simp [pass1M]
  | cons p rest ih =>
    intro idx size flag
    obtain ⟨kp, ep⟩ := p
    unfold pass1M
    simp only [List.length_cons]
    by_cases h1 : 0 < ep.ref_count
    · rw [if_pos h1]
      have := ih (idx + 1) size flag
      dsimp only
      omega
    · rw [if_neg h1]
      by_cases h2 : MAX_HASH_CACHE_AGE < ep.age + 1
      · rw [if_pos h2]
        have := ih (idx + 1) (size - 1) flag
        dsimp only
        omega
      · rw [if_neg h2]
        cases flag with
        | false =>
          rw [if_neg (by simp : ¬ (false = true))]
          have := ih (idx + 1) size false
          dsimp only
          omega
        | true =>
          rw [if_pos rfl]
          by_cases h3 : MAX_HASH_CACHE_SIZE < size
          · rw [if_pos h3]
            have := ih (idx + 1) size true
            dsimp only
            simp only [List.length_cons]
            omega
          · rw [if_neg h3]
            have := ih (idx + 1) size false
            dsimp only
            omega

theorem insertAgeDesc_perm (x : Nat × Nat) (l : List (Nat × Nat)) :
    (insertAgeDesc x l).Perm (x :: l) := by
  induction l with
  | nil => exact List.Perm.refl _
  | cons y t ih =>
    unfold insertAgeDesc
    split
    · exact List.Perm.refl _
    · exact (ih.cons y).trans (List.Perm.swap x y t)

theorem sortAgeDesc_perm (l : List (Nat × Nat)) : (sortAgeDesc l).Perm l := by
  induction l with
  | nil => exact List.Perm.refl _
  | cons x t ih =>
    exact (insertAgeDesc_perm x (t.foldr insertAgeDesc [])).trans (ih.cons x)

theorem length_filter_lt_of_mem_false {α : Type} {p : α → Bool} {l : List α} {x : α}
    (hx : x ∈ l) (hp : p x = false) : (l.filter p).length < l.length := by
  induction l with
  | nil => cases hx
  | cons a t ih =>
    rw [List.filter_cons]
    rcases List.mem_cons.mp hx with h | h
    · rw [← h, hp]
      simp only [Bool.false_eq_true, if_false, List.length_cons]
      exact Nat.lt_succ_of_le (List.length_filter_le p t)
    · by_cases ha : p a = true
      · rw [if_pos ha]
        simp only [List.length_cons]
        exact Nat.succ_lt_succ (ih h)
      · rw [if_neg ha]
        exact Nat.lt_succ_of_lt (ih h)

theorem filter_not_contains_length {α : Type} (R : List Nat) :
    ∀ L : List (Nat × α), R.Nodup → (∀ r ∈ R, ∃ t ∈ L, t.1 = r) →
      (L.filter fun t => !(R.contains t.1)).length + R.length ≤ L.length := by
  induction R with
  | nil =>
    intro L _ _
    simp only [List.contains, List.elem_nil, Bool.not_false, List.filter_true,
      List.length_nil, Nat.add_zero]
    exact Nat.le_refl _
  | cons r R' ih =>
    intro L hnd hsub
    obtain ⟨t₀, ht₀, ht₀r⟩ := hsub r (List.mem_cons_self _ _)
    have hrR' : r ∉ R' := (List.nodup_cons.mp hnd).1
    have hnd' : R'.Nodup := (List.nodup_cons.mp hnd).2
    have hsplit : (L.filter fun t => !((r :: R').contains t.1))
        = (L.filter fun t => !(t.1 == r)).filter fun t => !(R'.contains t.1) := by
      rw [List.filter_filter]
      apply List.filter_congr
      intro a _
      simp only [List.contains_cons, Bool.not_or]
      rw [Bool.and_comm]
    have hlt : (L.filter fun t => !(t.1 == r)).length < L.length := by
      refine length_filter_lt_of_mem_false ht₀ ?_
      simp [ht₀r]
    have hsub' : ∀ r' ∈ R', ∃ t ∈ (L.filter fun t => !(t.1 == r)), t.1 = r' := by
      intro r' hr'
      obtain ⟨t, ht, htr⟩ := hsub r' (List.mem_cons_of_mem _ hr')
      refine ⟨t, List.mem_filter.mpr ⟨ht, ?_⟩, htr⟩
      simp only [htr, Bool.not_eq_eq_eq_not, Bool.not_true, beq_eq_false_iff_ne, ne_eq]
      intro hh
      exact hrR' (hh ▸ hr')
    have ihh := ih (L.filter fun t => !(t.1 == r)) hnd' hsub'
    rw [hsplit]
    simp only [List.length_cons]
    omega

/-- Entry is referenced by at least one live Source. -/
def refdB (p : HashCacheKeyM × HCEntryM) : Bool := decide (0 < p.2.ref_count)

theorem filterMap_survivorStep_filter_refd (l : List (HashCacheKeyM × HCEntryM)) :
    (l.filterMap survivorStep).filter refdB = l.filter refdB := by
  induction l with
  | nil => rfl
  | cons p t ih =>
    rw [List.filterMap_cons]
    by_cases h1 : 0 < p.2.ref_count
    · have hs : survivorStep p = some p := by unfold survivorStep; rw [if_pos h1]
      have hb : refdB p = true := decide_eq_true h1
      rw [hs]
      simp only [List.filter_cons, hb, if_true, ih]
    · have hb : refdB p = false := by simp only [refdB, decide_eq_false_iff_not]; omega
      by_cases h2 : MAX_HASH_CACHE_AGE < p.2.age + 1
      · have hs : survivorStep p = none := by unfold survivorStep; rw [if_neg h1, if_pos h2]
        rw [hs]
        simp only [List.filter_cons, hb, Bool.false_eq_true, if_false, ih]
      · have hs : survivorStep p = some (p.1, { p.2 with age := p.2.age + 1 }) := by
          unfold survivorStep; rw [if_neg h1, if_neg h2]
        have hb2 : refdB (p.1, { p.2 with age := p.2.age + 1 }) = false := by
          simp only [refdB, decide_eq_false_iff_not]; omega
        rw [hs]
        simp only [List.filter_cons, hb, hb2, Bool.false_eq_true, if_false, ih]

theorem filter_victims_refd (kept : List (Nat × HashCacheKeyM × HCEntryM))
    (victims : List Nat) (hv : ∀ t ∈ kept, refdB t.2 = true → t.1 ∉ victims) :
    ((kept.filter fun t => !(victims.contains t.1)).map (fun t => t.2)).filter refdB
      = (kept.map (fun t => t.2)).filter refdB := by
  induction kept with
  | nil => rfl
  | cons t rest ih =>
    have ih2 := ih (fun u hu hr => hv u (List.mem_cons_of_mem _ hu) hr)
    rw [List.filter_cons]
    by_cases hr : refdB t.2 = true
    · have hnv : t.1 ∉ victims := hv t (List.mem_cons_self _ _) hr
      have hc : victims.contains t.1 = false := by
        cases h : victims.contains t.1
        · rfl
        · exact absurd (List.mem_of_elem_eq_true h) hnv
      rw [hc]
      simp only [Bool.not_false, if_true, List.map_cons, List.filter_cons, hr, if_true, ih2,
        List.map_cons, List.filter_cons]
    · have hrf : refdB t.2 = false := by
        cases h : refdB t.2
        · rfl
        · exact absurd h hr
      by_cases hc : victims.contains t.1
      · rw [hc]
        simp only [Bool.not_true, Bool.false_eq_true, if_false, ih2, List.map_cons,
          List.filter_cons, hrf, Bool.false_eq_true, if_false]
      · rw [Bool.not_eq_true] at hc
        rw [hc]
        simp only [Bool.not_false, if_true, List.map_cons, List.filter_cons, hrf,
          Bool.false_eq_true, if_false, ih2]

theorem pass1M_kept_length_le (l : List (HashCacheKeyM × HCEntryM)) :
    ∀ idx size flag, (pass1M l idx size flag).kept.length ≤ l.length := by
  induction l with
  | nil => intro idx size flag; simp [pass1M]
  | cons p rest ih =>
    intro idx size flag
    obtain ⟨kp, ep⟩ := p
    unfold pass1M
    simp only [List.length_cons]
    by_cases h1 : 0 < ep.ref_count
    · rw [if_pos h1]
      have := ih (idx + 1) size flag
      dsimp only
      simp only [List.length_cons]
      omega
    · rw [if_neg h1]
      by_cases h2 : MAX_HASH_CACHE_AGE < ep.age + 1
      · rw [if_pos h2]
        have := ih (idx + 1) (size - 1) flag
        dsimp only
        omega
      · rw [if_neg h2]
        cases flag with
        | false =>
          rw [if_neg (by simp : ¬ (false = true))]
          have := ih (idx + 1) size false
          dsimp only
          simp only [List.length_cons]
          omega
        | true =>
          rw [if_pos rfl]
          by_cases h3 : MAX_HASH_CACHE_SIZE < size
          · rw [if_pos h3]
            have := ih (idx + 1) size true
            dsimp only
            simp only [List.length_cons]
            omega
          · rw [if_neg h3]
            have := ih (idx + 1) size false
            dsimp only
            simp only [List.length_cons]
            omega

theorem victims_mem_purge {o : Pass1Out} {j : Nat} (hj : j ∈ victimsOf o) :
    ∃ a, (j, a) ∈ o.purge := by
  obtain ⟨pr, hpr, hpj⟩ := List.mem_map.mp hj
  have h1 : pr ∈ sortAgeDesc o.purge := List.mem_of_mem_take hpr
  have h2 : pr ∈ o.purge := (sortAgeDesc_perm o.purge).mem_iff.mp h1
  exact ⟨pr.2, by rw [← hpj]; simpa using h2⟩

theorem agePurgeStep_filter_refd (o : Pass1Out)
    (hnp : ∀ j kk e, (j, kk, e) ∈ o.kept → 0 < e.ref_count → ∀ a, (j, a) ∉ o.purge) :
    (agePurgeStep o).filter refdB = (o.kept.map fun t => t.2).filter refdB := by
  unfold agePurgeStep
  split
  · apply filter_victims_refd
    intro t ht hr hmem
    obtain ⟨a, ha⟩ := victims_mem_purge hmem
    exact hnp t.1 t.2.1 t.2.2 (by simpa using ht) (of_decide_eq_true hr) a ha
  · rfl

/-- Entries with a positive refcount pass through `AgeHashCache` untouched:
the sublist of referenced entries of the result is exactly that of the input. -/
theorem ageHashCacheM_filter_refd (l : List (HashCacheKeyM × HCEntryM)) :
    (ageHashCacheM l).filter refdB = l.filter refdB := by
  unfold ageHashCacheM
  rw [agePurgeStep_filter_refd _
    (pass1M_refd_not_purged l 0 l.length (decide (MAX_HASH_CACHE_SIZE < l.length))),
    pass1M_kept_map, filterMap_survivorStep_filter_refd]

theorem agePurgeStep_length_le (o : Pass1Out) (N : Nat)
    (hkl : o.size = o.kept.length)
    (hkN : o.kept.length ≤ N)
    (hpN : o.purge.length ≤ N)
    (hN : N < 2 ^ 32)
    (hff : o.flag = false → o.size ≤ MAX_HASH_CACHE_SIZE)
    (hkp : o.flag = true → ∀ t ∈ o.kept, ∃ a, (t.1, a) ∈ o.purge)
    (hpk : ∀ t ∈ o.purge, ∃ kk e, (t.1, kk, e) ∈ o.kept)
    (hkpw : o.kept.Pairwise (fun a b => a.1 < b.1))
    (hppw : o.purge.Pairwise (fun a b => a.1 < b.1)) :
    (agePurgeStep o).length ≤ MAX_HASH_CACHE_SIZE := by
  unfold agePurgeStep
  cases hf : o.flag with
  | false =>
    rw [if_neg (by decide)]
    rw [List.length_map]
    have := hff hf
    omega
  | true =>
    rw [if_pos rfl]
    by_cases hsize : o.size ≤ MAX_HASH_CACHE_SIZE
    · calc ((o.kept.filter fun t => !((victimsOf o).contains t.1)).map fun t => t.2).length
          ≤ o.kept.length := by
            rw [List.length_map]; exact List.length_filter_le _ _
        _ ≤ MAX_HASH_CACHE_SIZE := by omega
    · -- size > MAX: the purge removes size - MAX victims
      have hu : u32sub o.size MAX_HASH_CACHE_SIZE = o.size - MAX_HASH_CACHE_SIZE := by
        unfold u32sub MAX_HASH_CACHE_SIZE
        unfold MAX_HASH_CACHE_SIZE at hsize
        omega
      have hpmod : o.purge.length % 2 ^ 32 = o.purge.length := by omega
      -- the fst projections of kept and purge are nodup
      have hknd : (o.kept.map Prod.fst).Nodup :=
        (hkpw.map Prod.fst (fun a b hab => Nat.ne_of_lt hab))
      have hpnd : (o.purge.map Prod.fst).Nodup :=
        (hppw.map Prod.fst (fun a b hab => Nat.ne_of_lt hab))
      -- every kept position occurs among the purge positions
      have hsub : (o.kept.map Prod.fst) ⊆ (o.purge.map Prod.fst) := by
        intro j hj
        obtain ⟨t, ht, htj⟩ := List.mem_map.mp hj
        obtain ⟨a, ha⟩ := hkp hf t ht
        exact List.mem_map.mpr ⟨(t.1, a), ha, htj⟩
      have hlekp : o.kept.length ≤ o.purge.length := by
        have := (List.Nodup.subperm hknd hsub).length_le
        simpa using this
      -- victims are nodup and each hits a kept entry
      have hvnd : (victimsOf o).Nodup := by
        unfold victimsOf
        rw [List.map_take]
        refine List.Nodup.sublist (List.take_sublist _ _) ?_
        exact (((sortAgeDesc_perm o.purge).map Prod.fst).nodup_iff).mpr hpnd
      have hvsub : ∀ r ∈ victimsOf o, ∃ t ∈ o.kept, t.1 = r := by
        intro r hr
        obtain ⟨a, ha⟩ := victims_mem_purge hr
        obtain ⟨kk, e, hm⟩ := hpk (r, a) ha
        exact ⟨(r, kk, e), hm, rfl⟩
      have hcnt := filter_not_contains_length (victimsOf o) o.kept hvnd hvsub
      have hvlen : (victimsOf o).length = min (purgeCount o) o.purge.length := by
        unfold victimsOf
        rw [List.length_map, List.length_take, (sortAgeDesc_perm o.purge).length_eq]
      have hpc : purgeCount o = min (o.size - MAX_HASH_CACHE_SIZE) o.purge.length := by
        unfold purgeCount
        rw [hu, hpmod]
      rw [List.length_map]
      rw [hvlen, hpc] at hcnt
      unfold MAX_HASH_CACHE_SIZE at hsize hcnt ⊢
      omega

/-- When every entry has `ref_count == 0` (and the table is smaller than
`2^32`), the size after `AgeHashCache` is at most `MAX_HASH_CACHE_SIZE`. -/
theorem ageHashCacheM_allzero_length (l : List (HashCacheKeyM × HCEntryM))
    (hz : ∀ p ∈ l, p.2.ref_count = 0) (hlen : l.length < 2 ^ 32) :
    (ageHashCacheM l).length ≤ MAX_HASH_CACHE_SIZE := by
  unfold ageHashCacheM
  have hsz := pass1M_size l 0 l.length (decide (MAX_HASH_CACHE_SIZE < l.length)) (Nat.le_refl _)
  have hkle := pass1M_kept_length_le l 0 l.length (decide (MAX_HASH_CACHE_SIZE < l.length))
  refine agePurgeStep_length_le _ l.length (by omega) hkle
    (pass1M_purge_length_le l 0 l.length _) hlen ?_ ?_
    (fun t => pass1M_purge_mem_kept l 0 l.length _ t)
    (pass1M_pairwise l 0 l.length _).1 (pass1M_pairwise l 0 l.length _).2
  · intro hf
    refine pass1M_flag_false_size l 0 l.length _ ?_ hf
    intro hdec
    have := of_decide_eq_false hdec
    omega
  · intro hf t ht
    exact pass1M_allzero_kept_purged l 0 l.length _ hz hf t ht

/-! ### C6 and C10 claim theorems -/

/-- C6 amended: pass 1 of `AgeHashCache` leaves entries with `ref_count > 0`
untouched and drops a zero-refcount entry exactly when its incremented age
exceeds `MAX_HASH_CACHE_AGE`; the subsequent purge runs whenever the purge
flag — initialized to `size > MAX_HASH_CACHE_SIZE` and re-evaluated at each
surviving zero-refcount entry — is still set after the pass (which, because of
trailing age-evictions and the unsigned `size() - MAX_HASH_CACHE_SIZE`, can
remove candidates even when the post-pass size is at most
`MAX_HASH_CACHE_SIZE`); referenced entries are never purged, and when every
entry has `ref_count == 0` (table smaller than `2^32`) the post-call size is
at most `MAX_HASH_CACHE_SIZE`. -/
theorem C6_age_amended :
    (∀ l : List (HashCacheKeyM × HCEntryM),
      (ageHashCacheM l).filter refdB = l.filter refdB) ∧
    (∀ (l : List (HashCacheKeyM × HCEntryM)) (idx size : Nat) (flag : Bool),
      (pass1M l idx size flag).kept.map (fun t => t.2) = l.filterMap survivorStep) ∧
    (∀ l : List (HashCacheKeyM × HCEntryM),
      (∀ p ∈ l, p.2.ref_count = 0) → l.length < 2 ^ 32 →
      (ageHashCacheM l).length ≤ MAX_HASH_CACHE_SIZE) :=
  ⟨ageHashCacheM_filter_refd, pass1M_kept_map, ageHashCacheM_allzero_length⟩

/-- C6 amended, witness: a singleton table of one unreferenced entry stays
within the size bound. -/
theorem C6_age_amended_witness :
    (ageHashCacheM [(⟨[], none, 2⟩, ⟨0, 0, 5⟩)]).length ≤ MAX_HASH_CACHE_SIZE :=
  C6_age_amended.2.2 [(⟨[], none, 2⟩, ⟨0, 0, 5⟩)] (by decide) (by decide)

theorem hcFindIdx_spec (hkey : HashCacheKeyM) (l : List (HashCacheKeyM × HCEntryM)) :
    ∀ i, hcFindIdx hkey l = some i → ∃ e, l[i]? = some (hkey, e) := by
  induction l with
  | nil => intro i h; simp [hcFindIdx] at h
  | cons p t ih =>
    intro i h
    unfold hcFindIdx at h
    by_cases hp : p.1 = hkey
    · rw [if_pos hp] at h
      cases h
      exact ⟨p.2, by simp [← hp]⟩
    · rw [if_neg hp] at h
      cases hfi : hcFindIdx hkey t with
      | none => rw [hfi] at h; simp at h
      | some j =>
        rw [hfi] at h
        simp only [Option.map_some'] at h
        cases h
        obtain ⟨e, he⟩ := ih j hfi
        exact ⟨e, by simpa using he⟩

theorem bumpAt_getElem? (l : List (HashCacheKeyM × HCEntryM)) :
    ∀ i kk e, l[i]? = some (kk, e) →
      (bumpAt l i)[i]? = some (kk, (⟨e.texture, e.ref_count + 1, 0⟩ : HCEntryM)) := by
  induction l with
  | nil => intro i kk e h; simp at h
  | cons p t ih =>
    intro i kk e h
    cases i with
    | zero =>
      simp only [List.getElem?_cons_zero, Option.some.injEq] at h
      subst h
      simp [bumpAt]
    | succ j =>
      simp only [List.getElem?_cons_succ] at h
      show (p :: bumpAt t j)[j + 1]? = _
      simpa using ih j kk e h

theorem lookupHashCacheM_some (v : Vram) (fetch : Option Nat) (k : SourceKeyM) (st : TCState)
    (hkey : HashCacheKeyM) (idx : Nat) (st₁ : TCState)
    (h : lookupHashCacheM v fetch k st = (some (hkey, idx), st₁)) :
    ∃ e, st₁.hashCache[idx]? = some (hkey, e) := by
  unfold lookupHashCacheM at h
  cases hho : hashCacheKeyOf v k with
  | none => rw [hho] at h; simp at h
  | some hk2 =>
    rw [hho] at h
    dsimp only at h
    cases hfi : hcFindIdx hk2 st.hashCache with
    | some j =>
      rw [hfi] at h
      obtain ⟨hpair, hst⟩ := Prod.mk.injEq .. ▸ h
      cases hpair
      rw [← hst]
      exact hcFindIdx_spec _ st.hashCache idx hfi
    | none =>
      rw [hfi] at h
      cases fetch with
      | none => simp at h
      | some tex =>
        obtain ⟨hpair, hst⟩ := Prod.mk.injEq .. ▸ h
        cases hpair
        rw [← hst]
        exact ⟨⟨tex, 0, 0⟩, by simp⟩

/-- C10: `AgeHashCache` never removes a hash-cache entry whose `ref_count` is
positive, across any number of calls; and a Source returned by `CreateSource`
points (via `from_hash_cache`) at an entry whose `ref_count` was incremented
before the Source was returned, so its borrowed texture stays valid. -/
theorem C10_refcount_protects :
    (∀ (n : Nat) (hc : List (HashCacheKeyM × HCEntryM)) (kk : HashCacheKeyM) (e : HCEntryM),
      (kk, e) ∈ hc → 0 < e.ref_count → (kk, e) ∈ ageHashCacheM^[n] hc) ∧
    (∀ (v : Vram) (fetch : Option Nat) (k : SourceKeyM) (st : TCState) (i : Nat),
      (createSourceM v fetch k st).1 = some i →
      ∃ s, (createSourceM v fetch k st).2.sources i = some s ∧
        ∃ p, p ∈ (createSourceM v fetch k st).2.hashCache ∧ p.1 = s.fromHash ∧
          0 < p.2.ref_count) := by
  constructor
  · have hstep : ∀ (hc : List (HashCacheKeyM × HCEntryM)) (kk : HashCacheKeyM) (e : HCEntryM),
        (kk, e) ∈ hc → 0 < e.ref_count → (kk, e) ∈ ageHashCacheM hc := by
      intro hc kk e hm hr
      have h1 : (kk, e) ∈ hc.filter refdB := List.mem_filter.mpr ⟨hm, decide_eq_true hr⟩
      rw [← ageHashCacheM_filter_refd] at h1
      exact (List.mem_filter.mp h1).1
    intro n
    induction n with
    | zero => intro hc kk e hm _; simpa using hm
    | succ m ih =>
      intro hc kk e hm hr
      rw [Function.iterate_succ_apply]
      exact ih (ageHashCacheM hc) kk e (hstep hc kk e hm hr) hr
  · intro v fetch k st i h
    unfold createSourceM at h ⊢
    cases hlk : lookupHashCacheM v fetch k st with
    | mk r st₁ =>
      cases r with
      | none => rw [hlk] at h; simp at h
      | some pr =>
        obtain ⟨hkey, idx⟩ := pr
        rw [hlk] at h
        simp only [Option.some.injEq] at h
        refine ⟨⟨k, sourcePagesAll k, hkey⟩, ?_, ?_⟩
        · show (if i = st₁.nextId then some ⟨k, sourcePagesAll k, hkey⟩ else st₁.sources i)
            = some ⟨k, sourcePagesAll k, hkey⟩
          rw [if_pos h.symm]
        · obtain ⟨e, he⟩ := lookupHashCacheM_some v fetch k st hkey idx st₁ hlk
          have hb := bumpAt_getElem? st₁.hashCache idx hkey e he
          refine ⟨(hkey, ⟨e.texture, e.ref_count + 1, 0⟩), ?_, rfl, Nat.succ_pos _⟩
          show (hkey, (⟨e.texture, e.ref_count + 1, 0⟩ : HCEntryM)) ∈ bumpAt st₁.hashCache idx
          exact List.getElem?_mem hb

/-- C10 witness: a referenced entry survives three `AgeHashCache` calls, and a
concrete successful `CreateSource` leaves its entry referenced. -/
theorem C10_refcount_protects_witness :
    (⟨[], none, 2⟩, (⟨7, 1, 300⟩ : HCEntryM)) ∈
      ageHashCacheM^[3] [(⟨[], none, 2⟩, (⟨7, 1, 300⟩ : HCEntryM))] ∧
    ∃ s, (createSourceM (fun _ => 0) (some 7) c7key
        ⟨fun _ => [], fun _ => none, [], 0⟩).2.sources 0 = some s ∧
      ∃ p, p ∈ (createSourceM (fun _ => 0) (some 7) c7key
          ⟨fun _ => [], fun _ => none, [], 0⟩).2.hashCache ∧ p.1 = s.fromHash ∧
        0 < p.2.ref_count := by
  constructor
  · exact C10_refcount_protects.1 3 [(⟨[], none, 2⟩, ⟨7, 1, 300⟩)] ⟨[], none, 2⟩ ⟨7, 1, 300⟩
      (List.mem_cons_self _ _) (by decide)
  · exact C10_refcount_protects.2 (fun _ => 0) (some 7) c7key
      ⟨fun _ => [], fun _ => none, [], 0⟩ 0 rfl

end GPUTextureCache
